import Mathlib

/-!
Verification of the dp-spatial-decompositions core pipeline
(Cormode et al., "Differentially Private Spatial Decompositions").

The visible repository code is the benchmark notebook
`benchmark_signal_noise.ipynb`, which drives a library (`cormode.classical`,
`cormode.private`, `cormode.postprocessing`, `cluster`, `util`) whose sources
are not part of the repository snapshot.  The library components are therefore
modelled here from the specification, faithful to its words; the notebook's
orchestration (tree build via `insert_point`, privatize with GEOMETRIC budget,
`build_ols_tree`, `find_max_kulldorff_sweep` / `find_max_ebp_sweep`, and the
caller-side `make_shapely_circle` conversion) fixes the interfaces.

Real-valued counts are embedded as rationals (ℚ), so floating tolerances
(1e-6, 1e-9) are discharged by exact equalities.
-/

namespace Cormode

/-- Error taxonomy of the pipeline, modelled from the spec (§7):
`OutOfBounds` (insertion outside root region), `InvalidBudget`
(non-positive ε), `UnknownStrategy`, `BudgetMismatch`, and the recoverable
`NoCandidate` (scan found no node with positive excess). -/
inductive ErrorKind where
  | OutOfBounds
  | InvalidBudget
  | UnknownStrategy
  | BudgetMismatch
  | NoCandidate
deriving DecidableEq, Repr

/-- An axis-aligned box `[x0,x1) × [y0,y1)`, modelled from the spec (§3):
immutable once a node is created. -/
structure Region where
  x0 : ℚ
  y0 : ℚ
  x1 : ℚ
  y1 : ℚ
deriving DecidableEq, Repr

/-- Membership of a point in the half-open box. -/
def Region.containsPoint (r : Region) (p : ℚ × ℚ) : Bool :=
  decide (r.x0 ≤ p.1) && decide (p.1 < r.x1) && decide (r.y0 ≤ p.2) && decide (p.2 < r.y1)

/-- Horizontal midpoint of a region. -/
def Region.midx (r : Region) : ℚ := (r.x0 + r.x1) / 2

/-- Vertical midpoint of a region. -/
def Region.midy (r : Region) : ℚ := (r.y0 + r.y1) / 2

/-- Area of a region. -/
def Region.area (r : Region) : ℚ := (r.x1 - r.x0) * (r.y1 - r.y0)

/-- The four quadrants of a node, in the fixed order NW, NE, SW, SE used
throughout (spec §3). -/
inductive Quad where
  | nw
  | ne
  | sw
  | se
deriving DecidableEq, Repr

/-- The quadrant sub-region of a region (equal quadrants, spec §3):
west/east split at `midx`, south/north at `midy`. -/
def Region.subregion (r : Region) : Quad → Region
  | .nw => ⟨r.x0, r.midy, r.midx, r.y1⟩
  | .ne => ⟨r.midx, r.midy, r.x1, r.y1⟩
  | .sw => ⟨r.x0, r.y0, r.midx, r.midy⟩
  | .se => ⟨r.midx, r.y0, r.x1, r.midy⟩

/-- Modelled from the spec (§3, `QuadTreeNode` of `cormode.classical`, not in
the snapshot): a node owns a Region, a count, and either zero children (leaf)
or exactly four children in the fixed order NW, NE, SW, SE.  The value type is
a parameter because the same structure carries exact counts, noisy counts and
reconciled counts. -/
inductive QTree (α : Type) where
  | leaf (region : Region) (val : α)
  | node (region : Region) (val : α) (nw ne sw se : QTree α)
deriving DecidableEq, Repr

/-- The region owned by the root of a (sub)tree. -/
def QTree.region : QTree α → Region
  | .leaf r _ => r
  | .node r _ _ _ _ _ => r

/-- The value stored at the root of a (sub)tree. -/
def QTree.val : QTree α → α
  | .leaf _ v => v
  | .node _ v _ _ _ _ => v

/-- The child subtree in a given quadrant (a leaf returns itself; only used
on internal nodes). -/
def QTree.child : QTree α → Quad → QTree α
  | .leaf r v, _ => .leaf r v
  | .node _ _ nw _ _ _, .nw => nw
  | .node _ _ _ ne _ _, .ne => ne
  | .node _ _ _ _ sw _, .sw => sw
  | .node _ _ _ _ _ se, .se => se

/-- Modelled from the spec (§4.1): the empty tree of height `H` over a root
region, every count zero, children partitioning each region into equal
quadrants.  `H = 0` yields a single-node tree equal to the root. -/
def emptyTree (r : Region) : ℕ → QTree ℚ
  | 0 => .leaf r 0
  | h + 1 =>
    .node r 0 (emptyTree (r.subregion .nw) h) (emptyTree (r.subregion .ne) h)
      (emptyTree (r.subregion .sw) h) (emptyTree (r.subregion .se) h)

/-- The quadrant of `r` containing point `p` (split at the midpoints; the
west/south halves take the low half-open sides). -/
def quadOf (r : Region) (p : ℚ × ℚ) : Quad :=
  if p.1 < r.midx then (if p.2 < r.midy then .sw else .nw)
  else (if p.2 < r.midy then .se else .ne)

/-- Descend from the node, incrementing the count at every node on the path,
selecting the child quadrant containing the point at each level (spec §4.1). -/
def insertAux (p : ℚ × ℚ) : QTree ℚ → QTree ℚ
  | .leaf r c => .leaf r (c + 1)
  | .node r c nw ne sw se =>
    match quadOf r p with
    | .nw => .node r (c + 1) (insertAux p nw) ne sw se
    | .ne => .node r (c + 1) nw (insertAux p ne) sw se
    | .sw => .node r (c + 1) nw ne (insertAux p sw) se
    | .se => .node r (c + 1) nw ne sw (insertAux p se)

/-- Modelled from the spec (§4.1, `tree.insert_point` of `cormode.classical`,
not in the snapshot): fails with `OutOfBounds` if the point lies outside the
root Region, otherwise increments the count along the root-to-leaf path. -/
def QTree.insert_point (t : QTree ℚ) (p : ℚ × ℚ) : Except ErrorKind (QTree ℚ) :=
  if t.region.containsPoint p then .ok (insertAux p t) else .error .OutOfBounds

/-- Insert a list of points in order; fails on the first out-of-bounds point
(the notebook's `for point in points: tree.insert_point(point)` loop). -/
def insertAll (t : QTree ℚ) : List (ℚ × ℚ) → Except ErrorKind (QTree ℚ)
  | [] => .ok t
  | p :: ps =>
    match t.insert_point p with
    | .ok t' => insertAll t' ps
    | .error e => .error e

instance {ε α : Type} [DecidableEq ε] [DecidableEq α] : DecidableEq (Except ε α) := fun a b =>
  match a, b with
  | .ok x, .ok y =>
    if h : x = y then .isTrue (by rw [h]) else .isFalse (by intro hc; cases hc; exact h rfl)
  | .error x, .error y =>
    if h : x = y then .isTrue (by rw [h]) else .isFalse (by intro hc; cases hc; exact h rfl)
  | .ok _, .error _ => .isFalse (by intro hc; cases hc)
  | .error _, .ok _ => .isFalse (by intro hc; cases hc)

/-- The exact-count invariant (spec §3): at every non-leaf node the count
equals the sum of the four children's counts. -/
def consistentB : QTree ℚ → Bool
  | .leaf _ _ => true
  | .node _ c nw ne sw se =>
    decide (c = nw.val + ne.val + sw.val + se.val) && consistentB nw && consistentB ne
      && consistentB sw && consistentB se

/-- The sequence of quadrant choices made when descending with point `p`
from a node to a leaf: the root-to-leaf insertion path. -/
def pathOf (p : ℚ × ℚ) : QTree α → List Quad
  | .leaf _ _ => []
  | .node r _ nw ne sw se =>
    match quadOf r p with
    | .nw => .nw :: pathOf p nw
    | .ne => .ne :: pathOf p ne
    | .sw => .sw :: pathOf p sw
    | .se => .se :: pathOf p se

/-- The count stored at the node addressed by a quadrant path (`none` when
the path runs past a leaf). -/
def valAt : QTree ℚ → List Quad → Option ℚ
  | t, [] => some t.val
  | .leaf _ _, _ :: _ => none
  | .node _ _ nw _ _ _, .nw :: qs => valAt nw qs
  | .node _ _ _ ne _ _, .ne :: qs => valAt ne qs
  | .node _ _ _ _ sw _, .sw :: qs => valAt sw qs
  | .node _ _ _ _ _ se, .se :: qs => valAt se qs

/-- The subtree rooted at the node addressed by a quadrant path. -/
def subtreeAt : QTree α → List Quad → Option (QTree α)
  | t, [] => some t
  | .leaf _ _, _ :: _ => none
  | .node _ _ nw _ _ _, .nw :: qs => subtreeAt nw qs
  | .node _ _ _ ne _ _, .ne :: qs => subtreeAt ne qs
  | .node _ _ _ _ sw _, .sw :: qs => subtreeAt sw qs
  | .node _ _ _ _ _ se, .se :: qs => subtreeAt se qs

/-- `leadsTo q path` holds when `q` is an initial segment of `path`, i.e. the
node addressed by `q` lies on the root-to-leaf path `path`. -/
def leadsTo : List Quad → List Quad → Bool
  | [], _ => true
  | _ :: _, [] => false
  | a :: qs, b :: ps => decide (a = b) && leadsTo qs ps

/-- Every leaf sits at depth exactly `H` (the fixed-height tree shape of
spec §3). -/
def depthUniformB : QTree α → ℕ → Bool
  | .leaf _ _, 0 => true
  | .leaf _ _, _ + 1 => false
  | .node _ _ _ _ _ _, 0 => false
  | .node _ _ nw ne sw se, h + 1 =>
    depthUniformB nw h && depthUniformB ne h && depthUniformB sw h && depthUniformB se h

/-- Every internal node's children own exactly the four equal quadrant
sub-regions of its own region (spec §3). -/
def subdividedB : QTree α → Bool
  | .leaf _ _ => true
  | .node r _ nw ne sw se =>
    decide (nw.region = r.subregion .nw) && decide (ne.region = r.subregion .ne)
      && decide (sw.region = r.subregion .sw) && decide (se.region = r.subregion .se)
      && subdividedB nw && subdividedB ne && subdividedB sw && subdividedB se

/-- The two budget allocation strategies of `cormode.private` (spec §4.2),
a closed tagged variant. -/
inductive BudgetStrategy where
  | UNIFORM
  | GEOMETRIC
deriving DecidableEq, Repr

/-- Modelled from the spec (§4.2): the fixed geometric-decay ratio `r`,
instantiated at the spec's typical value `r = 2` (deeper levels weighted
more). -/
def geometricFactor : ℚ := 2

/-- The normalizing constant of the GEOMETRIC strategy: the sum of the
weights `r^h` over all levels `0..H`. -/
def geometricDen (H : ℕ) : ℚ := ((List.range (H + 1)).map (fun h => geometricFactor ^ h)).sum

/-- Modelled from the spec (§4.2, the BudgetAllocator of `cormode.private`,
not in the snapshot): splits `ε_total` over levels `0..H`; UNIFORM gives
`ε_total/(H+1)` everywhere, GEOMETRIC gives `ε_total · r^h` normalized by
`Σ r^h'`; fails with `InvalidBudget` when `ε_total ≤ 0` (negative `H` is
unrepresentable: `H : ℕ`). -/
def allocateBudget (strategy : BudgetStrategy) (epsTotal : ℚ) (H : ℕ) :
    Except ErrorKind (List ℚ) :=
  if epsTotal ≤ 0 then .error .InvalidBudget
  else
    match strategy with
    | .UNIFORM => .ok (List.replicate (H + 1) (epsTotal / (H + 1)))
    | .GEOMETRIC =>
      .ok ((List.range (H + 1)).map (fun h => epsTotal * geometricFactor ^ h / geometricDen H))

/-- The shape of a tree: regions and structure with the counts erased. -/
def QTree.shape : QTree α → QTree Unit
  | .leaf r _ => .leaf r ()
  | .node r _ nw ne sw se => .node r () nw.shape ne.shape sw.shape se.shape

/-- Map a function over every value of a tree. -/
def QTree.map (f : α → β) : QTree α → QTree β
  | .leaf r v => .leaf r (f v)
  | .node r v nw ne sw se => .node r (f v) (nw.map f) (ne.map f) (sw.map f) (se.map f)

/-- Modelled from the spec (§4.3, `private.make_private_quadtree`, not in the
snapshot): for each node at depth `d` draw one noise sample at Laplace scale
`1/ε_d` from the caller-supplied generator (an explicit state `rng : ℕ`
stepped by the injected `draw` function — never implicit global state) and
add it to the exact count; the stepped state is threaded through the
depth-first traversal and returned. -/
def make_private_quadtree (draw : ℕ → ℚ → ℚ × ℕ) (eps : ℕ → ℚ) :
    ℕ → ℕ → QTree ℚ → QTree ℚ × ℕ
  | d, rng, .leaf r c =>
    let s := draw rng (1 / eps d)
    (.leaf r (c + s.1), s.2)
  | d, rng, .node r c nw ne sw se =>
    let s := draw rng (1 / eps d)
    let pnw := make_private_quadtree draw eps (d + 1) s.2 nw
    let pne := make_private_quadtree draw eps (d + 1) pnw.2 ne
    let psw := make_private_quadtree draw eps (d + 1) pne.2 sw
    let pse := make_private_quadtree draw eps (d + 1) psw.2 se
    (.node r (c + s.1) pnw.1 pne.1 psw.1 pse.1, pse.2)

/-- The noise layer alone: the same traversal and generator threading as
`make_private_quadtree`, run on the shape of the tree, recording each node's
draw instead of adding it to a count. -/
def noiseTree (draw : ℕ → ℚ → ℚ × ℕ) (eps : ℕ → ℚ) :
    ℕ → ℕ → QTree Unit → QTree ℚ × ℕ
  | d, rng, .leaf r _ =>
    let s := draw rng (1 / eps d)
    (.leaf r s.1, s.2)
  | d, rng, .node r _ nw ne sw se =>
    let s := draw rng (1 / eps d)
    let pnw := noiseTree draw eps (d + 1) s.2 nw
    let pne := noiseTree draw eps (d + 1) pnw.2 ne
    let psw := noiseTree draw eps (d + 1) pne.2 sw
    let pse := noiseTree draw eps (d + 1) psw.2 se
    (.node r s.1 pnw.1 pne.1 psw.1 pse.1, pse.2)

/-- Pointwise sum of two trees of the same shape (the second tree's regions
are ignored; on a shape mismatch the first tree is returned). -/
def addNoise : QTree ℚ → QTree ℚ → QTree ℚ
  | .leaf r c, .leaf _ n => .leaf r (c + n)
  | .node r c nw ne sw se, .node _ n nw' ne' sw' se' =>
    .node r (c + n) (addNoise nw nw') (addNoise ne ne') (addNoise sw sw') (addNoise se se')
  | t, _ => t

/-- Modelled from the spec (§4.4, pass 1 of `postprocessing.build_ols_tree`,
not in the snapshot): the bottom-up pass.  Each node gets the pair
`(z, variance)`: at a leaf `z` is the noisy count itself with the Laplace
variance `2/ε_d²`; at an internal node `z` is the variance-minimizing
weighted average of the node's own noisy count and the sum of its children's
bottom-up estimates, the weights being the inverses of the two sources'
variances. -/
def buPass (eps : ℕ → ℚ) : ℕ → QTree ℚ → QTree (ℚ × ℚ)
  | d, .leaf r c => .leaf r (c, 2 / (eps d) ^ 2)
  | d, .node r c nw ne sw se =>
    let bnw := buPass eps (d + 1) nw
    let bne := buPass eps (d + 1) ne
    let bsw := buPass eps (d + 1) sw
    let bse := buPass eps (d + 1) se
    let childSum := bnw.val.1 + bne.val.1 + bsw.val.1 + bse.val.1
    let childVar := bnw.val.2 + bne.val.2 + bsw.val.2 + bse.val.2
    let ownVar := 2 / (eps d) ^ 2
    let w1 := 1 / ownVar
    let w2 := 1 / childVar
    .node r ((w1 * c + w2 * childSum) / (w1 + w2), 1 / (w1 + w2)) bnw bne bsw bse

/-- Modelled from the spec (§4.4, pass 2 of `postprocessing.build_ols_tree`,
not in the snapshot): the top-down pass assigns the node its reconciled value
`v` and distributes `v` to the children proportionally to each child's own
bottom-up estimate, falling back to an equal 1/4 split when all four
children's bottom-up estimates are zero or negative.  When some child
estimate is positive but the four estimates sum to zero the proportional
split divides by zero (a `ZeroDivisionError` in the Python source language),
modelled as `none`. -/
def tdPass : ℚ → QTree (ℚ × ℚ) → Option (QTree ℚ)
  | v, .leaf r _ => some (.leaf r v)
  | v, .node r _ nw ne sw se =>
    if nw.val.1 ≤ 0 ∧ ne.val.1 ≤ 0 ∧ sw.val.1 ≤ 0 ∧ se.val.1 ≤ 0 then do
      let a ← tdPass (v / 4) nw
      let b ← tdPass (v / 4) ne
      let c ← tdPass (v / 4) sw
      let e ← tdPass (v / 4) se
      return .node r v a b c e
    else
      let S := nw.val.1 + ne.val.1 + sw.val.1 + se.val.1
      if S = 0 then none
      else do
        let a ← tdPass (v * nw.val.1 / S) nw
        let b ← tdPass (v * ne.val.1 / S) ne
        let c ← tdPass (v * sw.val.1 / S) sw
        let e ← tdPass (v * se.val.1 / S) se
        return .node r v a b c e

/-- Modelled from the spec (§4.4, `postprocessing.build_ols_tree`, not in the
snapshot): reconcile a noisy tree into level-consistent counts — bottom-up
pass, then top-down pass started from the root's bottom-up estimate. -/
def build_ols_tree (eps : ℕ → ℚ) (t : QTree ℚ) : Option (QTree ℚ) :=
  let bu := buPass eps 0 t
  tdPass bu.val.1 bu

/-- Consistency up to a tolerance: at every non-leaf node the count differs
from the sum of the four children's counts by less than `tol`. -/
def consistentWithinB (tol : ℚ) : QTree ℚ → Bool
  | .leaf _ _ => true
  | .node _ c nw ne sw se =>
    decide (|c - (nw.val + ne.val + sw.val + se.val)| < tol)
      && consistentWithinB tol nw && consistentWithinB tol ne
      && consistentWithinB tol sw && consistentWithinB tol se

/-- A concrete noisy (inconsistent) height-1 tree used to exercise the
reconciliation theorems on explicit numbers. -/
def noisyDemoTree : QTree ℚ :=
  .node ⟨0, 0, 1, 1⟩ 4 (.leaf ⟨0, 1/2, 1/2, 1⟩ 2) (.leaf ⟨1/2, 1/2, 1, 1⟩ 1)
    (.leaf ⟨0, 0, 1/2, 1/2⟩ 0) (.leaf ⟨1/2, 0, 1, 1/2⟩ 0)

/-- All counts in the tree are nonnegative (true of every exact-count
tree). -/
def nonnegB : QTree ℚ → Bool
  | .leaf _ c => decide (0 ≤ c)
  | .node _ c nw ne sw se =>
    decide (0 ≤ c) && nonnegB nw && nonnegB ne && nonnegB sw && nonnegB se

/-- A height-1 tree whose counts are exactly consistent (root `0`, children
`1, -1, 0, 0`) but mix signs: one child's estimate is positive while the four
estimates sum to zero. -/
def mixedSignTree : QTree ℚ :=
  .node ⟨0, 0, 1, 1⟩ 0 (.leaf ⟨0, 1/2, 1/2, 1⟩ 1) (.leaf ⟨1/2, 1/2, 1, 1⟩ (-1))
    (.leaf ⟨0, 0, 1/2, 1/2⟩ 0) (.leaf ⟨1/2, 0, 1, 1/2⟩ 0)

/-- Depth-first traversal of all nodes: each node before its children, the
children in the fixed order NW, NE, SW, SE (spec §4.1 `traverse()` and the
§4.5 tie-break order). -/
def traverse : QTree α → List (QTree α)
  | .leaf r v => [.leaf r v]
  | .node r v nw ne sw se =>
    .node r v nw ne sw se :: (traverse nw ++ traverse ne ++ traverse sw ++ traverse se)

/-- A scored candidate region: finite statistic value, region area (the
tie-break key) and the region itself. -/
structure Cand where
  score : ℚ
  area : ℚ
  region : Region
deriving DecidableEq, Repr

/-- `betterCand a b`: `a` strictly beats `b` — higher score, or equal score
and strictly larger area (the coarser node wins ties, spec §4.5). -/
def betterCand (a b : Cand) : Bool :=
  decide (b.score < a.score) || (decide (a.score = b.score) && decide (b.area < a.area))

/-- The maximum of a candidate list under `betterCand`, keeping the earliest
listed candidate when neither strictly beats the other (so remaining ties
fall back to traversal order). -/
def pickBest : List Cand → Option Cand
  | [] => none
  | c :: cs =>
    match pickBest cs with
    | none => some c
    | some b => if betterCand b c then some b else some c

/-- Modelled from the spec (§4.5): the Kulldorff statistic at a node of the
reconciled tree.  With area fraction `a = area/rootArea` the expected count
under the uniform null is `e = N·a`; the statistic is evaluated only when
`c̃ > e` and is `-∞` (here `none`) otherwise.  The finite log-likelihood-ratio
value (computed with transcendental functions in the source language) is
abstracted as the explicit parameter `llr`; every property claimed of the
sweep holds for every such function. -/
def kulldorffScore (llr : ℚ → ℚ → ℚ) (N rootArea : ℚ) (n : QTree ℚ) : Option ℚ :=
  let e := N * (n.region.area / rootArea)
  if n.val > e then some (llr n.val e) else none

/-- Modelled from the spec (§4.5): the expectation-based (EBP) statistic with
expected count `e = λ·area`, evaluated only when `c̃ > e`; the finite Poisson
score is abstracted as the explicit parameter `ebp`. -/
def ebpScore (ebp : ℚ → ℚ → ℚ) (lam : ℚ) (n : QTree ℚ) : Option ℚ :=
  let e := lam * n.region.area
  if n.val > e then some (ebp n.val e) else none

/-- The finitely-scored candidates of a sweep, in traversal order. -/
def scoredCands (score : QTree ℚ → Option ℚ) (t : QTree ℚ) : List Cand :=
  (traverse t).filterMap (fun n => (score n).map (fun s => ⟨s, n.region.area, n.region⟩))

/-- Modelled from the spec (§4.5 `sweep`): score every traversed node, return
the strictly best candidate's `(statistic, Region)` — ties broken by larger
area, then traversal order — or fail with `NoCandidate` when every node
scores `-∞`. -/
def sweepWith (score : QTree ℚ → Option ℚ) (t : QTree ℚ) : Except ErrorKind (ℚ × Region) :=
  match pickBest (scoredCands score t) with
  | none => .error .NoCandidate
  | some b => .ok (b.score, b.region)

/-- Modelled from the spec (§4.5, `cluster.find_max_kulldorff_sweep`, not in
the snapshot): the Kulldorff sweep over a reconciled tree with known total
population `N`, as called by the notebook. -/
def find_max_kulldorff_sweep (llr : ℚ → ℚ → ℚ) (t : QTree ℚ) (N : ℚ) :
    Except ErrorKind (ℚ × Region) :=
  sweepWith (kulldorffScore llr N t.region.area) t

/-- Modelled from the spec (§4.5, `cluster.find_max_ebp_sweep`, not in the
snapshot): the EBP sweep with background rate `λ`, as called by the
notebook. -/
def find_max_ebp_sweep (ebp : ℚ → ℚ → ℚ) (t : QTree ℚ) (lam : ℚ) :
    Except ErrorKind (ℚ × Region) :=
  sweepWith (ebpScore ebp lam) t

/-- What a correct sweep result looks like (spec §4.5): it fails with
`NoCandidate` exactly when every node scores `-∞`; otherwise it returns the
score and region of a finitely-scored candidate that no other candidate
strictly beats (higher score, or equal score and larger area) and that
strictly beats every earlier candidate in traversal order. -/
def SweepOk (score : QTree ℚ → Option ℚ) (t : QTree ℚ)
    (result : Except ErrorKind (ℚ × Region)) : Prop :=
  (∀ e, result = .error e ↔ (e = .NoCandidate ∧ ∀ n ∈ traverse t, score n = none))
  ∧ (∀ s reg, result = .ok (s, reg) →
      ∃ i : ℕ, ∃ b : Cand,
        (scoredCands score t)[i]? = some b
        ∧ b.score = s ∧ b.region = reg
        ∧ (∃ n ∈ traverse t, score n = some s ∧ n.region = reg)
        ∧ (∀ c ∈ scoredCands score t, betterCand c b = false)
        ∧ (∀ j : ℕ, j < i → ∀ c, (scoredCands score t)[j]? = some c → betterCand b c = true))

/-- A circle, represented by its center and squared radius (the radius of a
circumscribed circle is half a diagonal, so its square stays rational). -/
structure Circle where
  cx : ℚ
  cy : ℚ
  radiusSq : ℚ
deriving DecidableEq, Repr

/-- Modelled from the spec (§4.5 output region, `util.make_shapely_circle` of
the notebook, not in the snapshot): the circumscribed circle of a Region —
center at the region centroid, radius half the region diagonal. -/
def make_shapely_circle (r : Region) : Circle :=
  ⟨(r.x0 + r.x1) / 2, (r.y0 + r.y1) / 2, ((r.x1 - r.x0) ^ 2 + (r.y1 - r.y0) ^ 2) / 4⟩

/-- The notebook's caller-side conversion (cell 6): run the Kulldorff sweep,
then — outside the sweep — turn the returned Region into a circle with
`make_shapely_circle`. -/
def notebookComputedCircle (llr : ℚ → ℚ → ℚ) (t : QTree ℚ) (N : ℚ) : Option Circle :=
  match find_max_kulldorff_sweep llr t N with
  | .ok pr => some (make_shapely_circle pr.2)
  | .error _ => none

/-- A height-1 tree over the unit square with explicit counts at the root
and the four quadrant leaves (in NW, NE, SW, SE order). -/
def h1Tree (a b c d e : ℚ) : QTree ℚ :=
  .node ⟨0, 0, 1, 1⟩ a (.leaf ⟨0, 1/2, 1/2, 1⟩ b) (.leaf ⟨1/2, 1/2, 1, 1⟩ c)
    (.leaf ⟨0, 0, 1/2, 1/2⟩ d) (.leaf ⟨1/2, 0, 1, 1/2⟩ e)

theorem insertAux_val (p : ℚ × ℚ) (t : QTree ℚ) : (insertAux p t).val = t.val + 1 := by
  cases t with
  | leaf r c => rfl
  | node r c nw ne sw se =>
    simp only [insertAux]
    cases quadOf r p <;> rfl

theorem consistentB_insertAux (p : ℚ × ℚ) (t : QTree ℚ) (h : consistentB t = true) :
    consistentB (insertAux p t) = true := by
  induction t with
  | leaf r c => rfl
  | node r c nw ne sw se ihnw ihne ihsw ihse =>
    simp only [consistentB, Bool.and_eq_true, decide_eq_true_eq] at h
    obtain ⟨⟨⟨⟨hsum, hnw⟩, hne⟩, hsw⟩, hse⟩ := h
    simp only [insertAux]
    cases quadOf r p <;>
      simp only [consistentB, Bool.and_eq_true, decide_eq_true_eq, insertAux_val] <;>
      refine ⟨⟨⟨⟨by rw [hsum]; ring, ?_⟩, ?_⟩, ?_⟩, ?_⟩ <;>
      first
        | exact hnw | exact hne | exact hsw | exact hse
        | exact ihnw hnw | exact ihne hne | exact ihsw hsw | exact ihse hse

theorem consistentB_emptyTree (r : Region) (h : ℕ) : consistentB (emptyTree r h) = true := by
  induction h generalizing r with
  | zero => rfl
  | succ n ih =>
    simp only [emptyTree, consistentB, Bool.and_eq_true, decide_eq_true_eq]
    have hv : ∀ r' : Region, ∀ m : ℕ, (emptyTree r' m).val = 0 := by
      intro r' m
      cases m <;> rfl
    simp [hv, ih]

theorem consistentB_insertAll (ps : List (ℚ × ℚ)) (t t' : QTree ℚ)
    (ht : consistentB t = true) (h : insertAll t ps = .ok t') : consistentB t' = true := by
  induction ps generalizing t with
  | nil =>
    simp only [insertAll] at h
    cases h
    exact ht
  | cons p ps ih =>
    simp only [insertAll, QTree.insert_point] at h
    by_cases hc : t.region.containsPoint p = true
    · rw [if_pos hc] at h
      exact ih (insertAux p t) (consistentB_insertAux p t ht) h
    · rw [if_neg hc] at h
      cases h

/-- C3: every quadtree obtained from the empty height-`H` tree by a sequence
of successful `insert_point` calls satisfies the exact-count invariant: at
every non-leaf node the count equals the sum of its four children's counts. -/
theorem quadtree_exact_count_invariant (r : Region) (H : ℕ) (ps : List (ℚ × ℚ))
    (t : QTree ℚ) (h : insertAll (emptyTree r H) ps = .ok t) : consistentB t = true :=
  consistentB_insertAll ps (emptyTree r H) t (consistentB_emptyTree r H) h

/-- Witness for C3 at a concrete input: two points inserted into a height-1
tree over the unit square yield a consistent tree. -/
theorem quadtree_exact_count_invariant_witness :
    consistentB (insertAux ((1 : ℚ)/4, (3 : ℚ)/4)
      (insertAux ((3 : ℚ)/4, (1 : ℚ)/4) (emptyTree ⟨0, 0, 1, 1⟩ 1))) = true := by
  have h : insertAll (emptyTree ⟨0, 0, 1, 1⟩ 1)
      [((3 : ℚ)/4, (1 : ℚ)/4), ((1 : ℚ)/4, (3 : ℚ)/4)]
      = .ok (insertAux ((1 : ℚ)/4, (3 : ℚ)/4)
          (insertAux ((3 : ℚ)/4, (1 : ℚ)/4) (emptyTree ⟨0, 0, 1, 1⟩ 1))) := by
    norm_num [insertAll, QTree.insert_point, emptyTree, QTree.region, Region.containsPoint,
      Region.subregion, Region.midx, Region.midy, insertAux, quadOf]
  exact quadtree_exact_count_invariant ⟨0, 0, 1, 1⟩ 1 _ _ h

theorem insertAux_valAt (p : ℚ × ℚ) (t : QTree ℚ) (q : List Quad) :
    valAt (insertAux p t) q
      = (valAt t q).map (fun v => if leadsTo q (pathOf p t) then v + 1 else v) := by
  induction t generalizing q with
  | leaf r c =>
    cases q with
    | nil => simp [insertAux, valAt, pathOf, leadsTo, QTree.val]
    | cons a qs => simp [insertAux, valAt]
  | node r c nw ne sw se ihnw ihne ihsw ihse =>
    cases hq : quadOf r p <;>
    · simp only [insertAux, pathOf, hq]
      cases q with
      | nil => simp [valAt, leadsTo, QTree.val]
      | cons a qs =>
        cases a <;> simp [valAt, leadsTo, ihnw, ihne, ihsw, ihse]

theorem pathOf_length (p : ℚ × ℚ) (t : QTree α) (H : ℕ)
    (h : depthUniformB t H = true) : (pathOf p t).length = H := by
  induction t generalizing H with
  | leaf r c =>
    cases H with
    | zero => rfl
    | succ n => simp [depthUniformB] at h
  | node r c nw ne sw se ihnw ihne ihsw ihse =>
    cases H with
    | zero => simp [depthUniformB] at h
    | succ n =>
      simp only [depthUniformB, Bool.and_eq_true] at h
      obtain ⟨⟨⟨h1, h2⟩, h3⟩, h4⟩ := h
      simp only [pathOf]
      cases quadOf r p <;>
        simp [List.length_cons, ihnw _ h1, ihne _ h2, ihsw _ h3, ihse _ h4]

theorem containsPoint_subregion_quadOf (r : Region) (p : ℚ × ℚ)
    (h : r.containsPoint p = true) : (r.subregion (quadOf r p)).containsPoint p = true := by
  simp only [Region.containsPoint, Bool.and_eq_true, decide_eq_true_eq] at h ⊢
  obtain ⟨⟨⟨h1, h2⟩, h3⟩, h4⟩ := h
  unfold quadOf
  split_ifs with hx hy hy <;>
    push_neg at * <;>
    simp only [Region.subregion, Region.midx, Region.midy] <;>
    refine ⟨⟨⟨?_, ?_⟩, ?_⟩, ?_⟩ <;> first | assumption | linarith

theorem path_regions_contain (p : ℚ × ℚ) (t : QTree ℚ)
    (hs : subdividedB t = true) (hc : t.region.containsPoint p = true) :
    ∀ q : List Quad, leadsTo q (pathOf p t) = true →
      ∃ s, subtreeAt t q = some s ∧ s.region.containsPoint p = true := by
  induction t generalizing p with
  | leaf r c =>
    intro q hq
    cases q with
    | nil => exact ⟨.leaf r c, rfl, hc⟩
    | cons a qs => simp [pathOf, leadsTo] at hq
  | node r c nw ne sw se ihnw ihne ihsw ihse =>
    intro q hq
    cases q with
    | nil => exact ⟨.node r c nw ne sw se, rfl, hc⟩
    | cons a qs =>
      simp only [subdividedB, Bool.and_eq_true, decide_eq_true_eq] at hs
      obtain ⟨⟨⟨⟨⟨⟨⟨e1, e2⟩, e3⟩, e4⟩, s1⟩, s2⟩, s3⟩, s4⟩ := hs
      have hsub := containsPoint_subregion_quadOf r p hc
      simp only [pathOf] at hq
      cases hquad : quadOf r p <;> rw [hquad] at hq hsub <;>
        simp only [leadsTo, Bool.and_eq_true, decide_eq_true_eq] at hq <;>
        obtain ⟨rfl, hq'⟩ := hq
      · exact ihnw p s1 (by rw [e1]; exact hsub) qs hq'
      · exact ihne p s2 (by rw [e2]; exact hsub) qs hq'
      · exact ihsw p s3 (by rw [e3]; exact hsub) qs hq'
      · exact ihse p s4 (by rw [e4]; exact hsub) qs hq'

/-- C6: `insert_point` fails with `OutOfBounds` exactly when the point lies
outside the root Region (a failed insertion returns only the error, leaving
the tree value untouched); on success it increments the count of precisely
the nodes addressed by initial segments of the root-to-leaf insertion path —
`H+1` nodes on a depth-uniform height-`H` tree — leaving every other node's
count unchanged, and on a properly subdivided tree every node on that path
owns a quadrant region containing the point. -/
theorem insert_point_spec (t : QTree ℚ) (p : ℚ × ℚ) :
    (∀ e, t.insert_point p = .error e ↔ (e = .OutOfBounds ∧ t.region.containsPoint p = false))
    ∧ (∀ t', t.insert_point p = .ok t' →
        t.region.containsPoint p = true
        ∧ (∀ q, valAt t' q
            = (valAt t q).map (fun v => if leadsTo q (pathOf p t) then v + 1 else v))
        ∧ (∀ H, depthUniformB t H = true → (pathOf p t).length = H)
        ∧ (subdividedB t = true → ∀ q, leadsTo q (pathOf p t) = true →
            ∃ s, subtreeAt t q = some s ∧ s.region.containsPoint p = true)) := by
  constructor
  · intro e
    unfold QTree.insert_point
    by_cases hc : t.region.containsPoint p = true
    · simp [hc]
    · simp only [Bool.not_eq_true] at hc
      simp [hc, eq_comm]
  · intro t' hok
    unfold QTree.insert_point at hok
    by_cases hc : t.region.containsPoint p = true
    · rw [if_pos hc] at hok
      cases hok
      exact ⟨hc, insertAux_valAt p t, pathOf_length p t,
        fun hs => path_regions_contain p t hs hc⟩
    · rw [if_neg hc] at hok
      cases hok

/-- Witness for C6 at a concrete input: inserting `(1/4, 3/4)` into the empty
height-1 unit-square tree succeeds, bumps the root and the NW leaf to 1, and
leaves the NE leaf at 0. -/
theorem insert_point_spec_witness :
    ∃ t', (emptyTree ⟨0, 0, 1, 1⟩ 1).insert_point ((1 : ℚ)/4, (3 : ℚ)/4) = .ok t'
      ∧ valAt t' [] = some 1 ∧ valAt t' [.nw] = some 1 ∧ valAt t' [.ne] = some 0 := by
  have hok : (emptyTree ⟨0, 0, 1, 1⟩ 1).insert_point ((1 : ℚ)/4, (3 : ℚ)/4)
      = .ok (insertAux ((1 : ℚ)/4, (3 : ℚ)/4) (emptyTree ⟨0, 0, 1, 1⟩ 1)) := by
    norm_num [QTree.insert_point, emptyTree, QTree.region, Region.containsPoint]
  refine ⟨_, hok, ?_⟩
  have h := ((insert_point_spec (emptyTree ⟨0, 0, 1, 1⟩ 1) ((1 : ℚ)/4, (3 : ℚ)/4)).2 _ hok).2.1
  rw [h [], h [.nw], h [.ne]]
  norm_num [emptyTree, valAt, pathOf, leadsTo, quadOf, Region.midx, Region.midy,
    Region.subregion, QTree.val]
  all_goals decide

theorem geometricDen_pos (H : ℕ) : 0 < geometricDen H := by
  refine List.sum_pos _ (fun x hx => ?_) (by simp [List.range_succ])
  simp only [List.mem_map] at hx
  obtain ⟨h, _, rfl⟩ := hx
  simp only [geometricFactor]
  exact pow_pos (by norm_num) h

/-- C4: for every `ε_total > 0`, height `H` and strategy, the allocator
returns a schedule of `H+1` per-level budgets summing to `ε_total` (exactly,
hence within 1e-9), with UNIFORM giving `ε_total/(H+1)` at every level and
GEOMETRIC giving `ε_total · r^h / Σ r^h'`. -/
theorem budget_schedule_spec (strategy : BudgetStrategy) (epsTotal : ℚ) (H : ℕ)
    (h : 0 < epsTotal) :
    ∃ sched, allocateBudget strategy epsTotal H = .ok sched
      ∧ sched.length = H + 1
      ∧ |sched.sum - epsTotal| < 1/1000000000
      ∧ (strategy = .UNIFORM → sched = List.replicate (H + 1) (epsTotal / (H + 1)))
      ∧ (strategy = .GEOMETRIC →
          sched = (List.range (H + 1)).map
            (fun h => epsTotal * geometricFactor ^ h / geometricDen H)) := by
  have hne : ¬ epsTotal ≤ 0 := not_le.mpr h
  cases strategy with
  | UNIFORM =>
    refine ⟨List.replicate (H + 1) (epsTotal / (H + 1)), ?_, ?_, ?_, fun _ => rfl, by simp⟩
    · simp [allocateBudget, hne]
    · simp
    · have hsum : (List.replicate (H + 1) (epsTotal / (H + 1))).sum = epsTotal := by
        rw [List.sum_replicate, nsmul_eq_mul]
        have hH : ((H : ℚ) + 1) ≠ 0 := by positivity
        push_cast
        field_simp
      rw [hsum]
      norm_num
  | GEOMETRIC =>
    refine ⟨_, by simp [allocateBudget, hne], by simp, ?_, by simp, fun _ => rfl⟩
    have hden : geometricDen H ≠ 0 := ne_of_gt (geometricDen_pos H)
    have hsum : ((List.range (H + 1)).map
        (fun h => epsTotal * geometricFactor ^ h / geometricDen H)).sum = epsTotal := by
      have hfun : (fun h => epsTotal * geometricFactor ^ h / geometricDen H)
          = fun h => (epsTotal / geometricDen H) * geometricFactor ^ h := by
        funext x
        field_simp
      rw [hfun, List.sum_map_mul_left, ← geometricDen]
      field_simp
    rw [hsum]
    norm_num

/-- Witness for C4 at a concrete input: the GEOMETRIC allocation of
`ε_total = 1` over a height-1 tree. -/
theorem budget_schedule_spec_witness :
    ∃ sched, allocateBudget .GEOMETRIC 1 1 = .ok sched
      ∧ sched.length = 1 + 1
      ∧ |sched.sum - 1| < 1/1000000000
      ∧ (BudgetStrategy.GEOMETRIC = .UNIFORM → sched = List.replicate (1 + 1) (1 / (1 + 1)))
      ∧ (BudgetStrategy.GEOMETRIC = .GEOMETRIC →
          sched = (List.range (1 + 1)).map
            (fun h => 1 * geometricFactor ^ h / geometricDen 1)) :=
  budget_schedule_spec .GEOMETRIC 1 1 (by norm_num)

theorem make_private_eq_addNoise (draw : ℕ → ℚ → ℚ × ℕ) (eps : ℕ → ℚ) (t : QTree ℚ) :
    ∀ d rng, make_private_quadtree draw eps d rng t
      = (addNoise t (noiseTree draw eps d rng t.shape).1, (noiseTree draw eps d rng t.shape).2) := by
  induction t with
  | leaf r c => intro d rng; rfl
  | node r c nw ne sw se ihnw ihne ihsw ihse =>
    intro d rng
    simp only [make_private_quadtree, noiseTree, QTree.shape, ihnw, ihne, ihsw, ihse, addNoise]

/-- C7: the Privatizer's randomness comes only from the explicit,
caller-supplied generator state: two privatization runs on the same tree,
budget schedule, depth and seed produce identical noisy trees and identical
final generator states; moreover the noisy tree decomposes as the exact
counts plus a noise layer computed from the tree's shape and the seed alone,
so the noise draws never depend on the data counts. -/
theorem privatizer_deterministic (draw : ℕ → ℚ → ℚ × ℕ) (eps : ℕ → ℚ) (d : ℕ)
    (t₁ t₂ : QTree ℚ) (rng₁ rng₂ : ℕ) (ht : t₁ = t₂) (hr : rng₁ = rng₂) :
    make_private_quadtree draw eps d rng₁ t₁ = make_private_quadtree draw eps d rng₂ t₂
    ∧ (make_private_quadtree draw eps d rng₁ t₁).1
        = addNoise t₁ (noiseTree draw eps d rng₁ t₁.shape).1
    ∧ (make_private_quadtree draw eps d rng₁ t₁).2
        = (noiseTree draw eps d rng₁ t₁.shape).2 := by
  subst ht hr
  refine ⟨rfl, ?_, ?_⟩ <;> rw [make_private_eq_addNoise]

/-- Witness for C7 at a concrete input: a single-leaf tree, the all-ones
schedule and a generator that emits its state. -/
theorem privatizer_deterministic_witness :
    make_private_quadtree (fun s _ => ((s : ℚ), s + 1)) (fun _ => 1) 0 7 (.leaf ⟨0, 0, 1, 1⟩ 5)
        = make_private_quadtree (fun s _ => ((s : ℚ), s + 1)) (fun _ => 1) 0 7 (.leaf ⟨0, 0, 1, 1⟩ 5)
      ∧ (make_private_quadtree (fun s _ => ((s : ℚ), s + 1)) (fun _ => 1) 0 7
          (.leaf ⟨0, 0, 1, 1⟩ 5)).1
        = addNoise (.leaf ⟨0, 0, 1, 1⟩ 5)
            (noiseTree (fun s _ => ((s : ℚ), s + 1)) (fun _ => 1) 0 7
              (QTree.shape (.leaf ⟨0, 0, 1, 1⟩ 5))).1
      ∧ (make_private_quadtree (fun s _ => ((s : ℚ), s + 1)) (fun _ => 1) 0 7
          (.leaf ⟨0, 0, 1, 1⟩ 5)).2
        = (noiseTree (fun s _ => ((s : ℚ), s + 1)) (fun _ => 1) 0 7
            (QTree.shape (.leaf ⟨0, 0, 1, 1⟩ 5))).2 :=
  privatizer_deterministic (fun s _ => ((s : ℚ), s + 1)) (fun _ => 1) 0
    (.leaf ⟨0, 0, 1, 1⟩ 5) (.leaf ⟨0, 0, 1, 1⟩ 5) 7 7 rfl rfl

theorem consistentB_within (t : QTree ℚ) (tol : ℚ) (htol : 0 < tol)
    (h : consistentB t = true) : consistentWithinB tol t = true := by
  induction t with
  | leaf r c => rfl
  | node r c nw ne sw se ihnw ihne ihsw ihse =>
    simp only [consistentB, Bool.and_eq_true, decide_eq_true_eq] at h
    obtain ⟨⟨⟨⟨hsum, h1⟩, h2⟩, h3⟩, h4⟩ := h
    simp only [consistentWithinB, Bool.and_eq_true, decide_eq_true_eq]
    exact ⟨⟨⟨⟨by rw [hsum]; simpa using htol, ihnw h1⟩, ihne h2⟩, ihsw h3⟩, ihse h4⟩

theorem tdPass_val (v : ℚ) (b : QTree (ℚ × ℚ)) (t' : QTree ℚ) (h : tdPass v b = some t') :
    t'.val = v := by
  cases b with
  | leaf r z =>
    simp only [tdPass, Option.some.injEq] at h
    rw [← h]
    rfl
  | node r z nw ne sw se =>
    simp only [tdPass] at h
    by_cases h1 : nw.val.1 ≤ 0 ∧ ne.val.1 ≤ 0 ∧ sw.val.1 ≤ 0 ∧ se.val.1 ≤ 0
    · rw [if_pos h1] at h
      simp only [bind, Option.bind_eq_some, Option.pure_def, Option.some.injEq] at h
      obtain ⟨a, _, b, _, c, _, e, _, ht⟩ := h
      rw [← ht]
      rfl
    · rw [if_neg h1] at h
      by_cases h2 : nw.val.1 + ne.val.1 + sw.val.1 + se.val.1 = 0
      · rw [if_pos h2] at h
        cases h
      · rw [if_neg h2] at h
        simp only [bind, Option.bind_eq_some, Option.pure_def, Option.some.injEq] at h
        obtain ⟨a, _, b, _, c, _, e, _, ht⟩ := h
        rw [← ht]
        rfl

theorem tdPass_consistent (b : QTree (ℚ × ℚ)) :
    ∀ v t', tdPass v b = some t' → consistentB t' = true := by
  induction b with
  | leaf r z =>
    intro v t' h
    simp only [tdPass, Option.some.injEq] at h
    rw [← h]
    rfl
  | node r z nw ne sw se ihnw ihne ihsw ihse =>
    intro v t' h
    simp only [tdPass] at h
    by_cases h1 : nw.val.1 ≤ 0 ∧ ne.val.1 ≤ 0 ∧ sw.val.1 ≤ 0 ∧ se.val.1 ≤ 0
    · rw [if_pos h1] at h
      simp only [bind, Option.bind_eq_some, Option.pure_def, Option.some.injEq] at h
      obtain ⟨a, ha, b', hb, c, hc, e, he, ht⟩ := h
      rw [← ht]
      simp only [consistentB, Bool.and_eq_true, decide_eq_true_eq]
      refine ⟨⟨⟨⟨?_, ihnw _ _ ha⟩, ihne _ _ hb⟩, ihsw _ _ hc⟩, ihse _ _ he⟩
      rw [tdPass_val _ _ _ ha, tdPass_val _ _ _ hb, tdPass_val _ _ _ hc, tdPass_val _ _ _ he]
      ring
    · rw [if_neg h1] at h
      by_cases h2 : nw.val.1 + ne.val.1 + sw.val.1 + se.val.1 = 0
      · rw [if_pos h2] at h
        cases h
      · rw [if_neg h2] at h
        simp only [bind, Option.bind_eq_some, Option.pure_def, Option.some.injEq] at h
        obtain ⟨a, ha, b', hb, c, hc, e, he, ht⟩ := h
        rw [← ht]
        simp only [consistentB, Bool.and_eq_true, decide_eq_true_eq]
        refine ⟨⟨⟨⟨?_, ihnw _ _ ha⟩, ihne _ _ hb⟩, ihsw _ _ hc⟩, ihse _ _ he⟩
        rw [tdPass_val _ _ _ ha, tdPass_val _ _ _ hb, tdPass_val _ _ _ hc, tdPass_val _ _ _ he]
        field_simp
        ring

/-- C1: every reconciled tree produced by `build_ols_tree` satisfies the
parent-equals-sum-of-children invariant exactly (hence within 1e-6 at every
non-leaf node), its root value is the root's bottom-up estimate, and the
top-down pass falls back to an equal 1/4 split exactly when all four
children's bottom-up estimates are zero or negative. -/
theorem build_ols_tree_spec (eps : ℕ → ℚ) (t t' : QTree ℚ)
    (h : build_ols_tree eps t = some t') :
    consistentB t' = true
    ∧ consistentWithinB (1/1000000) t' = true
    ∧ t'.val = (buPass eps 0 t).val.1
    ∧ (∀ (v : ℚ) (r : Region) (zv : ℚ × ℚ) (c1 c2 c3 c4 : QTree (ℚ × ℚ)) (u : QTree ℚ),
        c1.val.1 ≤ 0 → c2.val.1 ≤ 0 → c3.val.1 ≤ 0 → c4.val.1 ≤ 0 →
        tdPass v (.node r zv c1 c2 c3 c4) = some u →
        (u.child .nw).val = v / 4 ∧ (u.child .ne).val = v / 4
          ∧ (u.child .sw).val = v / 4 ∧ (u.child .se).val = v / 4) := by
  unfold build_ols_tree at h
  refine ⟨tdPass_consistent _ _ _ h, consistentB_within _ _ (by norm_num)
    (tdPass_consistent _ _ _ h), tdPass_val _ _ _ h, ?_⟩
  intro v r zv c1 c2 c3 c4 u h1 h2 h3 h4 hu
  simp only [tdPass] at hu
  rw [if_pos ⟨h1, h2, h3, h4⟩] at hu
  simp only [bind, Option.bind_eq_some, Option.pure_def, Option.some.injEq] at hu
  obtain ⟨a, ha, b', hb, c, hc, e, he, ht⟩ := hu
  rw [← ht]
  exact ⟨tdPass_val _ _ _ ha, tdPass_val _ _ _ hb, tdPass_val _ _ _ hc, tdPass_val _ _ _ he⟩

theorem build_ols_tree_noisyDemoTree :
    build_ols_tree (fun _ => 1) noisyDemoTree
      = some (.node ⟨0, 0, 1, 1⟩ (19/5) (.leaf ⟨0, 1/2, 1/2, 1⟩ (38/15))
          (.leaf ⟨1/2, 1/2, 1, 1⟩ (19/15)) (.leaf ⟨0, 0, 1/2, 1/2⟩ 0)
          (.leaf ⟨1/2, 0, 1, 1/2⟩ 0)) := by
  norm_num [build_ols_tree, buPass, tdPass, noisyDemoTree, QTree.val, bind, Option.bind]

/-- Witness for C1 at a concrete input: the reconciled tree of the demo
noisy tree is exactly consistent. -/
theorem build_ols_tree_spec_witness :
    consistentB (.node ⟨0, 0, 1, 1⟩ (19/5) (.leaf ⟨0, 1/2, 1/2, 1⟩ (38/15))
      (.leaf ⟨1/2, 1/2, 1, 1⟩ (19/15)) (.leaf ⟨0, 0, 1/2, 1/2⟩ 0)
      (.leaf ⟨1/2, 0, 1, 1/2⟩ 0)) = true :=
  (build_ols_tree_spec (fun _ => 1) noisyDemoTree _ build_ols_tree_noisyDemoTree).1

theorem QTree.map_val (f : α → β) (t : QTree α) : (t.map f).val = f t.val := by
  cases t <;> rfl

theorem buPass_var_pos (eps : ℕ → ℚ) (heps : ∀ d, 0 < eps d) (t : QTree ℚ) :
    ∀ d, 0 < (buPass eps d t).val.2 := by
  induction t with
  | leaf r c =>
    intro d
    exact div_pos (by norm_num) (pow_pos (heps d) 2)
  | node r c nw ne sw se ihnw ihne ihsw ihse =>
    intro d
    have hcv : 0 < (buPass eps (d+1) nw).val.2 + (buPass eps (d+1) ne).val.2
        + (buPass eps (d+1) sw).val.2 + (buPass eps (d+1) se).val.2 := by
      have := ihnw (d+1); have := ihne (d+1); have := ihsw (d+1); have := ihse (d+1)
      linarith
    have hov : (0:ℚ) < 2 / (eps d) ^ 2 := div_pos (by norm_num) (pow_pos (heps d) 2)
    simp only [buPass, QTree.val]
    exact div_pos (by norm_num) (by positivity)

theorem buPass_map_fst (eps : ℕ → ℚ) (heps : ∀ d, 0 < eps d) (t : QTree ℚ)
    (hc : consistentB t = true) : ∀ d, QTree.map Prod.fst (buPass eps d t) = t := by
  induction t with
  | leaf r c => intro d; rfl
  | node r c nw ne sw se ihnw ihne ihsw ihse =>
    intro d
    simp only [consistentB, Bool.and_eq_true, decide_eq_true_eq] at hc
    obtain ⟨⟨⟨⟨hsum, h1⟩, h2⟩, h3⟩, h4⟩ := hc
    have env : ∀ (s : QTree ℚ), QTree.map Prod.fst (buPass eps (d+1) s) = s →
        (buPass eps (d+1) s).val.1 = s.val := by
      intro s hs
      have := QTree.map_val (Prod.fst (α := ℚ) (β := ℚ)) (buPass eps (d+1) s)
      rw [hs] at this
      exact this.symm
    have vnw := env nw (ihnw h1 (d+1))
    have vne := env ne (ihne h2 (d+1))
    have vsw := env sw (ihsw h3 (d+1))
    have vse := env se (ihse h4 (d+1))
    have hov : (0:ℚ) < 2 / (eps d) ^ 2 := div_pos (by norm_num) (pow_pos (heps d) 2)
    have hcv : 0 < (buPass eps (d+1) nw).val.2 + (buPass eps (d+1) ne).val.2
        + (buPass eps (d+1) sw).val.2 + (buPass eps (d+1) se).val.2 := by
      have := buPass_var_pos eps heps nw (d+1); have := buPass_var_pos eps heps ne (d+1)
      have := buPass_var_pos eps heps sw (d+1); have := buPass_var_pos eps heps se (d+1)
      linarith
    simp only [buPass, QTree.map, ihnw h1, ihne h2, ihsw h3, ihse h4]
    rw [vnw, vne, vsw, vse]
    have hz : (1 / (2 / eps d ^ 2) * c
        + 1 / ((buPass eps (d+1) nw).val.2 + (buPass eps (d+1) ne).val.2
          + (buPass eps (d+1) sw).val.2 + (buPass eps (d+1) se).val.2)
          * (nw.val + ne.val + sw.val + se.val))
        / (1 / (2 / eps d ^ 2)
          + 1 / ((buPass eps (d+1) nw).val.2 + (buPass eps (d+1) ne).val.2
            + (buPass eps (d+1) sw).val.2 + (buPass eps (d+1) se).val.2)) = c := by
      rw [← hsum]
      have hw1 : 0 < 1 / (2 / eps d ^ 2) := by positivity
      have hw2 : 0 < 1 / ((buPass eps (d+1) nw).val.2 + (buPass eps (d+1) ne).val.2
          + (buPass eps (d+1) sw).val.2 + (buPass eps (d+1) se).val.2) := by positivity
      rw [div_eq_iff (by linarith : 1 / (2 / eps d ^ 2)
          + 1 / ((buPass eps (d+1) nw).val.2 + (buPass eps (d+1) ne).val.2
            + (buPass eps (d+1) sw).val.2 + (buPass eps (d+1) se).val.2) ≠ 0)]
      ring
    rw [hz]

theorem tdPass_identity (t : QTree ℚ) :
    consistentB t = true → nonnegB t = true →
      ∀ b : QTree (ℚ × ℚ), QTree.map Prod.fst b = t → tdPass t.val b = some t := by
  induction t with
  | leaf r c =>
    intro _ _ b hb
    cases b with
    | leaf r' z =>
      simp only [QTree.map, QTree.leaf.injEq] at hb
      obtain ⟨rfl, rfl⟩ := hb
      rfl
    | node r' z bnw bne bsw bse => simp [QTree.map] at hb
  | node r c nw ne sw se ihnw ihne ihsw ihse =>
    intro hc hn b hb
    cases b with
    | leaf r' z => simp [QTree.map] at hb
    | node r' z bnw bne bsw bse =>
      simp only [QTree.map, QTree.node.injEq] at hb
      obtain ⟨rfl, rfl, hbnw, hbne, hbsw, hbse⟩ := hb
      simp only [consistentB, Bool.and_eq_true, decide_eq_true_eq] at hc
      obtain ⟨⟨⟨⟨hsum, hc1⟩, hc2⟩, hc3⟩, hc4⟩ := hc
      simp only [nonnegB, Bool.and_eq_true, decide_eq_true_eq] at hn
      obtain ⟨⟨⟨⟨_, hn1⟩, hn2⟩, hn3⟩, hn4⟩ := hn
      have nn : ∀ s : QTree ℚ, nonnegB s = true → 0 ≤ s.val := by
        intro s hs
        cases s <;> simp only [nonnegB, Bool.and_eq_true, decide_eq_true_eq] at hs <;>
          first | exact hs | exact hs.1.1.1.1
      have znw : bnw.val.1 = nw.val := by
        have := QTree.map_val (Prod.fst (α := ℚ) (β := ℚ)) bnw
        rw [hbnw] at this
        exact this.symm
      have zne : bne.val.1 = ne.val := by
        have := QTree.map_val (Prod.fst (α := ℚ) (β := ℚ)) bne
        rw [hbne] at this
        exact this.symm
      have zsw : bsw.val.1 = sw.val := by
        have := QTree.map_val (Prod.fst (α := ℚ) (β := ℚ)) bsw
        rw [hbsw] at this
        exact this.symm
      have zse : bse.val.1 = se.val := by
        have := QTree.map_val (Prod.fst (α := ℚ) (β := ℚ)) bse
        rw [hbse] at this
        exact this.symm
      simp only [QTree.val]
      simp only [tdPass, znw, zne, zsw, zse]
      by_cases hall : nw.val ≤ 0 ∧ ne.val ≤ 0 ∧ sw.val ≤ 0 ∧ se.val ≤ 0
      · rw [if_pos hall]
        have e1 : nw.val = 0 := le_antisymm hall.1 (nn nw hn1)
        have e2 : ne.val = 0 := le_antisymm hall.2.1 (nn ne hn2)
        have e3 : sw.val = 0 := le_antisymm hall.2.2.1 (nn sw hn3)
        have e4 : se.val = 0 := le_antisymm hall.2.2.2 (nn se hn4)
        have ec : z.1 = 0 := by rw [hsum, e1, e2, e3, e4]; ring
        have q : z.1 / 4 = (0:ℚ) := by rw [ec]; norm_num
        have t1 : tdPass (z.1 / 4) bnw = some nw := by
          rw [q, ← e1]; exact ihnw hc1 hn1 bnw hbnw
        have t2 : tdPass (z.1 / 4) bne = some ne := by
          rw [q, ← e2]; exact ihne hc2 hn2 bne hbne
        have t3 : tdPass (z.1 / 4) bsw = some sw := by
          rw [q, ← e3]; exact ihsw hc3 hn3 bsw hbsw
        have t4 : tdPass (z.1 / 4) bse = some se := by
          rw [q, ← e4]; exact ihse hc4 hn4 bse hbse
        simp [bind, t1, t2, t3, t4]
      · rw [if_neg hall]
        have hS : 0 < nw.val + ne.val + sw.val + se.val := by
          have g1 := nn nw hn1
          have g2 := nn ne hn2
          have g3 := nn sw hn3
          have g4 := nn se hn4
          rcases (by linarith : (0:ℚ) ≤ nw.val + ne.val + sw.val + se.val).lt_or_eq
            with hlt | heq
          · exact hlt
          · exact absurd ⟨by linarith, by linarith, by linarith, by linarith⟩ hall
        rw [if_neg hS.ne']
        have q1 : z.1 * nw.val / (nw.val + ne.val + sw.val + se.val) = nw.val := by
          rw [hsum]; exact mul_div_cancel_left₀ _ hS.ne'
        have q2 : z.1 * ne.val / (nw.val + ne.val + sw.val + se.val) = ne.val := by
          rw [hsum]; exact mul_div_cancel_left₀ _ hS.ne'
        have q3 : z.1 * sw.val / (nw.val + ne.val + sw.val + se.val) = sw.val := by
          rw [hsum]; exact mul_div_cancel_left₀ _ hS.ne'
        have q4 : z.1 * se.val / (nw.val + ne.val + sw.val + se.val) = se.val := by
          rw [hsum]; exact mul_div_cancel_left₀ _ hS.ne'
        have t1 : tdPass (z.1 * nw.val / (nw.val + ne.val + sw.val + se.val)) bnw = some nw := by
          rw [q1]; exact ihnw hc1 hn1 bnw hbnw
        have t2 : tdPass (z.1 * ne.val / (nw.val + ne.val + sw.val + se.val)) bne = some ne := by
          rw [q2]; exact ihne hc2 hn2 bne hbne
        have t3 : tdPass (z.1 * sw.val / (nw.val + ne.val + sw.val + se.val)) bsw = some sw := by
          rw [q3]; exact ihsw hc3 hn3 bsw hbsw
        have t4 : tdPass (z.1 * se.val / (nw.val + ne.val + sw.val + se.val)) bse = some se := by
          rw [q4]; exact ihse hc4 hn4 bse hbse
        simp [bind, t1, t2, t3, t4]

/-- Counterexample for C5: `mixedSignTree` satisfies the
parent-equals-sum-of-children invariant exactly, yet reconciliation is not
the identity on it — the top-down proportional split divides by the zero sum
of the children's bottom-up estimates (the positive NW child defeats the
all-nonpositive 1/4 fallback), so `build_ols_tree` fails instead of
returning the same counts. -/
theorem reconcile_not_identity_on_consistent :
    consistentB mixedSignTree = true
      ∧ build_ols_tree (fun _ => 1) mixedSignTree = none := by
  constructor
  · norm_num [mixedSignTree, consistentB, QTree.val]
  · norm_num [mixedSignTree, build_ols_tree, buPass, tdPass, QTree.val]

/-- C5 (amended): reconciliation applied to a tree whose counts satisfy the
parent-equals-sum-of-children invariant and are nonnegative — in particular
any exact-count tree fed in by the nonprivate path — is the identity: it
returns the very same tree. -/
theorem reconcile_identity_on_consistent_nonneg (eps : ℕ → ℚ) (t : QTree ℚ)
    (heps : ∀ d, 0 < eps d) (hc : consistentB t = true) (hn : nonnegB t = true) :
    build_ols_tree eps t = some t := by
  show tdPass (buPass eps 0 t).val.1 (buPass eps 0 t) = some t
  have hmap := buPass_map_fst eps heps t hc 0
  have hval : (buPass eps 0 t).val.1 = t.val := by
    have := QTree.map_val (Prod.fst (α := ℚ) (β := ℚ)) (buPass eps 0 t)
    rw [hmap] at this
    exact this.symm
  rw [hval]
  exact tdPass_identity t hc hn (buPass eps 0 t) hmap

/-- Witness for the amended C5 at a concrete input: the consistent
exact-count tree with root 2 and children `1, 1, 0, 0` reconciles to
itself. -/
theorem reconcile_identity_witness :
    build_ols_tree (fun _ => 1)
        (.node ⟨0, 0, 1, 1⟩ 2 (.leaf ⟨0, 1/2, 1/2, 1⟩ 1) (.leaf ⟨1/2, 1/2, 1, 1⟩ 1)
          (.leaf ⟨0, 0, 1/2, 1/2⟩ 0) (.leaf ⟨1/2, 0, 1, 1/2⟩ 0))
      = some (.node ⟨0, 0, 1, 1⟩ 2 (.leaf ⟨0, 1/2, 1/2, 1⟩ 1) (.leaf ⟨1/2, 1/2, 1, 1⟩ 1)
          (.leaf ⟨0, 0, 1/2, 1/2⟩ 0) (.leaf ⟨1/2, 0, 1, 1/2⟩ 0)) :=
  reconcile_identity_on_consistent_nonneg (fun _ => 1) _ (fun _ => by norm_num)
    (by norm_num [consistentB, QTree.val]) (by norm_num [nonnegB])

theorem betterCand_true_iff (a b : Cand) :
    betterCand a b = true ↔ (b.score < a.score ∨ (a.score = b.score ∧ b.area < a.area)) := by
  simp [betterCand]

theorem betterCand_false_iff (a b : Cand) :
    betterCand a b = false ↔ (a.score < b.score ∨ (a.score = b.score ∧ a.area ≤ b.area)) := by
  rw [← Bool.not_eq_true, betterCand_true_iff]
  constructor
  · intro h
    push_neg at h
    obtain ⟨h1, h2⟩ := h
    rcases lt_trichotomy a.score b.score with hlt | heq | hgt
    · exact Or.inl hlt
    · exact Or.inr ⟨heq, h2 heq⟩
    · exact absurd hgt (not_lt.mpr h1)
  · rintro (h | ⟨heq, har⟩) <;> rintro (hh | ⟨he, ha⟩) <;> first | linarith | (rw [he] at *; linarith)

theorem betterCand_irrefl (a : Cand) : betterCand a a = false := by
  rw [betterCand_false_iff]
  exact Or.inr ⟨rfl, le_refl _⟩

theorem betterCand_false_trans (a b c : Cand) (h1 : betterCand a b = false)
    (h2 : betterCand b c = false) : betterCand a c = false := by
  rw [betterCand_false_iff] at h1 h2 ⊢
  rcases h1 with h1 | ⟨e1, r1⟩ <;> rcases h2 with h2 | ⟨e2, r2⟩
  · exact Or.inl (lt_trans h1 h2)
  · exact Or.inl (by rw [← e2]; exact h1)
  · exact Or.inl (by rw [e1]; exact h2)
  · exact Or.inr ⟨e1.trans e2, le_trans r1 r2⟩

theorem betterCand_asymm (a b : Cand) (h : betterCand a b = true) : betterCand b a = false := by
  rw [betterCand_true_iff] at h
  rw [betterCand_false_iff]
  rcases h with h | ⟨he, ha⟩
  · exact Or.inl h
  · exact Or.inr ⟨he.symm, le_of_lt ha⟩

theorem pickBest_eq_none_iff (l : List Cand) : pickBest l = none ↔ l = [] := by
  cases l with
  | nil => simp [pickBest]
  | cons c cs =>
    simp only [pickBest]
    cases pickBest cs with
    | none => simp
    | some b =>
      by_cases hb : betterCand b c = true <;> simp [hb]

theorem pickBest_mem (l : List Cand) (b : Cand) (h : pickBest l = some b) : b ∈ l := by
  induction l with
  | nil => cases h
  | cons c cs ih =>
    simp only [pickBest] at h
    cases hp : pickBest cs with
    | none =>
      simp only [hp] at h
      cases h
      exact List.mem_cons_self _ _
    | some b' =>
      simp only [hp] at h
      by_cases hb : betterCand b' c = true
      · rw [if_pos hb] at h
        cases h
        exact List.mem_cons_of_mem _ (ih hp)
      · rw [if_neg hb] at h
        cases h
        exact List.mem_cons_self _ _

theorem pickBest_not_beaten (l : List Cand) (b : Cand) (h : pickBest l = some b) :
    ∀ c ∈ l, betterCand c b = false := by
  induction l generalizing b with
  | nil => cases h
  | cons c cs ih =>
    simp only [pickBest] at h
    cases hp : pickBest cs with
    | none =>
      simp only [hp] at h
      cases h
      rw [pickBest_eq_none_iff] at hp
      subst hp
      intro x hx
      rcases List.mem_singleton.mp hx with rfl
      exact betterCand_irrefl _
    | some b' =>
      simp only [hp] at h
      by_cases hb : betterCand b' c = true
      · rw [if_pos hb] at h
        cases h
        intro x hx
        rcases List.mem_cons.mp hx with rfl | hx'
        · exact betterCand_asymm _ _ hb
        · exact ih _ hp x hx'
      · rw [if_neg hb] at h
        cases h
        intro x hx
        rcases List.mem_cons.mp hx with rfl | hx'
        · exact betterCand_irrefl _
        · exact betterCand_false_trans x b' c (ih _ hp x hx') (by simpa using hb)

theorem pickBest_earliest (l : List Cand) (b : Cand) (h : pickBest l = some b) :
    ∃ i : ℕ, l[i]? = some b
      ∧ ∀ j : ℕ, j < i → ∀ c, l[j]? = some c → betterCand b c = true := by
  induction l generalizing b with
  | nil => cases h
  | cons c cs ih =>
    simp only [pickBest] at h
    cases hp : pickBest cs with
    | none =>
      simp only [hp] at h
      cases h
      exact ⟨0, List.getElem?_cons_zero, fun j hj => absurd hj (Nat.not_lt_zero j)⟩
    | some b' =>
      simp only [hp] at h
      by_cases hb : betterCand b' c = true
      · rw [if_pos hb] at h
        cases h
        obtain ⟨i, hi, hearlier⟩ := ih _ hp
        refine ⟨i + 1, by simpa using hi, fun j hj d hd => ?_⟩
        cases j with
        | zero =>
          rw [List.getElem?_cons_zero] at hd
          cases hd
          exact hb
        | succ j' =>
          rw [List.getElem?_cons_succ] at hd
          exact hearlier j' (Nat.lt_of_succ_lt_succ hj) d hd
      · rw [if_neg hb] at h
        cases h
        exact ⟨0, List.getElem?_cons_zero, fun j hj => absurd hj (Nat.not_lt_zero j)⟩

theorem scoredCands_mem (score : QTree ℚ → Option ℚ) (t : QTree ℚ) (b : Cand)
    (h : b ∈ scoredCands score t) :
    ∃ n ∈ traverse t, score n = some b.score ∧ n.region = b.region
      ∧ n.region.area = b.area := by
  unfold scoredCands at h
  rw [List.mem_filterMap] at h
  obtain ⟨n, hn, hf⟩ := h
  cases hs : score n with
  | none => rw [hs] at hf; cases hf
  | some s =>
    rw [hs] at hf
    simp only [Option.map_some'] at hf
    cases hf
    exact ⟨n, hn, by rw [hs], rfl, rfl⟩

theorem sweepWith_spec (score : QTree ℚ → Option ℚ) (t : QTree ℚ) :
    SweepOk score t (sweepWith score t) := by
  constructor
  · intro e
    unfold sweepWith
    cases hp : pickBest (scoredCands score t) with
    | none =>
      rw [pickBest_eq_none_iff] at hp
      unfold scoredCands at hp
      rw [List.filterMap_eq_nil_iff] at hp
      constructor
      · intro he
        cases he
        refine ⟨rfl, fun n hn => ?_⟩
        have := hp n hn
        rwa [Option.map_eq_none'] at this
      · rintro ⟨rfl, _⟩
        rfl
    | some b =>
      constructor
      · intro he
        cases he
      · rintro ⟨rfl, hall⟩
        exfalso
        have hmem := pickBest_mem _ _ hp
        obtain ⟨n, hn, hs, _, _⟩ := scoredCands_mem score t b hmem
        rw [hall n hn] at hs
        cases hs
  · intro s reg hok
    unfold sweepWith at hok
    cases hp : pickBest (scoredCands score t) with
    | none =>
      rw [hp] at hok
      cases hok
    | some b =>
      rw [hp] at hok
      simp only [Except.ok.injEq, Prod.mk.injEq] at hok
      obtain ⟨hs, hr⟩ := hok
      obtain ⟨i, hi, hearlier⟩ := pickBest_earliest _ _ hp
      obtain ⟨n, hn, hscore, hreg, _⟩ := scoredCands_mem score t b (pickBest_mem _ _ hp)
      exact ⟨i, b, hi, hs, hr, ⟨n, hn, by rw [hscore, hs], by rw [hreg, hr]⟩,
        pickBest_not_beaten _ _ hp, hearlier⟩

/-- C2: for every tree and every choice of the finite statistic values, each
sweep evaluates its statistic at every traversed node, scores `-∞` (`none`)
exactly at the nodes whose count is at most the expected count, returns a
candidate no other candidate strictly beats — ties broken by larger area and
then by the NW-NE-SW-SE, parents-first traversal order — and fails with
`NoCandidate` (not a crash) exactly when every node scores `-∞`. -/
theorem scan_sweep_spec (llr ebp : ℚ → ℚ → ℚ) (N lam : ℚ) (t : QTree ℚ) :
    SweepOk (kulldorffScore llr N t.region.area) t (find_max_kulldorff_sweep llr t N)
    ∧ SweepOk (ebpScore ebp lam) t (find_max_ebp_sweep ebp t lam)
    ∧ (∀ n : QTree ℚ, kulldorffScore llr N t.region.area n = none
        ↔ n.val ≤ N * (n.region.area / t.region.area))
    ∧ (∀ n : QTree ℚ, ebpScore ebp lam n = none ↔ n.val ≤ lam * n.region.area) := by
  refine ⟨sweepWith_spec _ t, sweepWith_spec _ t, fun n => ?_, fun n => ?_⟩
  · simp [kulldorffScore, ite_eq_right_iff, not_lt]
  · simp [ebpScore, ite_eq_right_iff, not_lt]

/-- Witness for C2 at a concrete input: on a single-leaf tree with count 0
and population 1 every node is in deficit, so the Kulldorff sweep reports
`NoCandidate`. -/
theorem scan_sweep_spec_witness :
    find_max_kulldorff_sweep (fun a b => a - b) (.leaf ⟨0, 0, 1, 1⟩ 0) 1
      = .error .NoCandidate := by
  apply ((scan_sweep_spec (fun a b => a - b) (fun a b => a - b) 1 1
    (.leaf ⟨0, 0, 1, 1⟩ 0)).1.1 .NoCandidate).mpr
  refine ⟨rfl, fun n hn => ?_⟩
  simp only [traverse, List.mem_singleton] at hn
  subst hn
  norm_num [kulldorffScore, QTree.val, QTree.region, Region.area]

/-- C8: the sweep itself reports the best node's rectangular Region; the
circular approximation is applied afterwards by the caller
(`notebookComputedCircle`, mirroring the notebook) and is the circumscribed
circle: center at the region centroid and squared radius a quarter of the
squared diagonal. -/
theorem sweep_reports_region (llr : ℚ → ℚ → ℚ) (t : QTree ℚ) (N s : ℚ) (reg : Region)
    (h : find_max_kulldorff_sweep llr t N = .ok (s, reg)) :
    (∃ n ∈ traverse t, n.region = reg)
    ∧ notebookComputedCircle llr t N = some (make_shapely_circle reg)
    ∧ (make_shapely_circle reg).cx = (reg.x0 + reg.x1) / 2
    ∧ (make_shapely_circle reg).cy = (reg.y0 + reg.y1) / 2
    ∧ (make_shapely_circle reg).radiusSq
        = ((reg.x1 - reg.x0) ^ 2 + (reg.y1 - reg.y0) ^ 2) / 4 := by
  refine ⟨?_, ?_, rfl, rfl, rfl⟩
  · unfold find_max_kulldorff_sweep sweepWith at h
    cases hp : pickBest (scoredCands (kulldorffScore llr N t.region.area) t) with
    | none =>
      rw [hp] at h
      cases h
    | some b =>
      rw [hp] at h
      simp only [Except.ok.injEq, Prod.mk.injEq] at h
      obtain ⟨_, hr⟩ := h
      obtain ⟨n, hn, _, hreg, _⟩ := scoredCands_mem _ t b (pickBest_mem _ _ hp)
      exact ⟨n, hn, by rw [hreg, hr]⟩
  · unfold notebookComputedCircle
    rw [h]

theorem scoredCands_step (score : QTree ℚ → Option ℚ) (n : QTree ℚ) (l : List (QTree ℚ)) :
    (n :: l).filterMap (fun m => (score m).map (fun s => (⟨s, m.region.area, m.region⟩ : Cand)))
      = (match score n with
          | none =>
            l.filterMap (fun m => (score m).map (fun s => (⟨s, m.region.area, m.region⟩ : Cand)))
          | some s =>
            ⟨s, n.region.area, n.region⟩
              :: l.filterMap
                  (fun m => (score m).map (fun s => (⟨s, m.region.area, m.region⟩ : Cand)))) := by
  cases hs : score n with
  | none => simp [hs]
  | some s => simp [hs]

/-- Witness for C8 at a concrete input: on the tree with root 4 and NW leaf
2 only the NW leaf is in excess with population 4, and the sweep reports its
rectangular Region, circled only afterwards by the caller. -/
theorem sweep_reports_region_witness :
    (∃ n ∈ traverse (h1Tree 4 2 1 1 0), n.region = (⟨0, 1/2, 1/2, 1⟩ : Region))
    ∧ notebookComputedCircle (fun a b => a - b) (h1Tree 4 2 1 1 0) 4
        = some (make_shapely_circle ⟨0, 1/2, 1/2, 1⟩)
    ∧ (make_shapely_circle (⟨0, 1/2, 1/2, 1⟩ : Region)).cx = ((0 : ℚ) + 1/2) / 2
    ∧ (make_shapely_circle (⟨0, 1/2, 1/2, 1⟩ : Region)).cy = ((1 : ℚ)/2 + 1) / 2
    ∧ (make_shapely_circle (⟨0, 1/2, 1/2, 1⟩ : Region)).radiusSq
        = (((1 : ℚ)/2 - 0) ^ 2 + ((1 : ℚ) - 1/2) ^ 2) / 4 :=
  sweep_reports_region (fun a b => a - b) (h1Tree 4 2 1 1 0) 4 1 ⟨0, 1/2, 1/2, 1⟩ (by
    have hc : scoredCands
        (kulldorffScore (fun a b => a - b) 4 (h1Tree 4 2 1 1 0).region.area)
        (h1Tree 4 2 1 1 0) = [⟨1, 1/4, ⟨0, 1/2, 1/2, 1⟩⟩] := by
      rw [scoredCands, show traverse (h1Tree 4 2 1 1 0)
          = [h1Tree 4 2 1 1 0, .leaf ⟨0, 1/2, 1/2, 1⟩ 2, .leaf ⟨1/2, 1/2, 1, 1⟩ 1,
              .leaf ⟨0, 0, 1/2, 1/2⟩ 1, .leaf ⟨1/2, 0, 1, 1/2⟩ 0] from by
        simp [traverse, h1Tree]]
      rw [scoredCands_step, show kulldorffScore (fun a b => a - b) 4
          (h1Tree 4 2 1 1 0).region.area (h1Tree 4 2 1 1 0) = none from by
        norm_num [kulldorffScore, h1Tree, QTree.val, QTree.region, Region.area]]
      rw [scoredCands_step, show kulldorffScore (fun a b => a - b) 4
          (h1Tree 4 2 1 1 0).region.area (.leaf ⟨0, 1/2, 1/2, 1⟩ 2) = some 1 from by
        norm_num [kulldorffScore, h1Tree, QTree.val, QTree.region, Region.area]]
      rw [scoredCands_step, show kulldorffScore (fun a b => a - b) 4
          (h1Tree 4 2 1 1 0).region.area (.leaf ⟨1/2, 1/2, 1, 1⟩ 1) = none from by
        norm_num [kulldorffScore, h1Tree, QTree.val, QTree.region, Region.area]]
      rw [scoredCands_step, show kulldorffScore (fun a b => a - b) 4
          (h1Tree 4 2 1 1 0).region.area (.leaf ⟨0, 0, 1/2, 1/2⟩ 1) = none from by
        norm_num [kulldorffScore, h1Tree, QTree.val, QTree.region, Region.area]]
      rw [scoredCands_step, show kulldorffScore (fun a b => a - b) 4
          (h1Tree 4 2 1 1 0).region.area (.leaf ⟨1/2, 0, 1, 1/2⟩ 0) = none from by
        norm_num [kulldorffScore, h1Tree, QTree.val, QTree.region, Region.area]]
      norm_num [QTree.region, Region.area]
    show sweepWith (kulldorffScore (fun a b => a - b) 4 (h1Tree 4 2 1 1 0).region.area)
        (h1Tree 4 2 1 1 0) = .ok (1, ⟨0, 1/2, 1/2, 1⟩)
    rw [sweepWith, hc]
    simp [pickBest])

theorem emptyTree_unit_h1 : emptyTree ⟨0, 0, 1, 1⟩ 1 = h1Tree 0 0 0 0 0 := by
  norm_num [emptyTree, h1Tree, Region.subregion, Region.midx, Region.midy]

theorem insertAll_replicate_nw (n : ℕ) :
    ∀ a b : ℚ, insertAll (h1Tree a b 0 0 0) (List.replicate n ((1 : ℚ)/4, (3 : ℚ)/4))
      = .ok (h1Tree (a + n) (b + n) 0 0 0) := by
  induction n with
  | zero =>
    intro a b
    simp [insertAll, h1Tree]
  | succ m ih =>
    intro a b
    rw [List.replicate_succ]
    have hstep : (h1Tree a b 0 0 0).insert_point ((1 : ℚ)/4, (3 : ℚ)/4)
        = .ok (h1Tree (a + 1) (b + 1) 0 0 0) := by
      norm_num [h1Tree, QTree.insert_point, QTree.region, Region.containsPoint, insertAux,
        quadOf, Region.midx, Region.midy]
    simp only [insertAll, hstep, ih (a + 1) (b + 1)]
    have e1 : a + 1 + (m : ℚ) = a + ((m : ℕ) + 1 : ℕ) := by push_cast; ring
    have e2 : b + 1 + (m : ℚ) = b + ((m : ℕ) + 1 : ℕ) := by push_cast; ring
    rw [e1, e2]

/-- C9: with all 100 points at a single spot inside the NW quadrant of the
height-1 unit-square tree, the built tree has root count 100 and NW count
100, and — whatever the finite Kulldorff values are — the sweep with
`N = 100` selects the NW child (observed 100, expected 25, area 1/4) over
the root (observed 100 = expected 100, no excess) and over the empty
siblings, reporting the NW quadrant's Region. -/
theorem kulldorff_selects_nw_cluster (llr : ℚ → ℚ → ℚ) :
    insertAll (emptyTree ⟨0, 0, 1, 1⟩ 1) (List.replicate 100 ((1 : ℚ)/4, (3 : ℚ)/4))
      = .ok (h1Tree 100 100 0 0 0)
    ∧ find_max_kulldorff_sweep llr (h1Tree 100 100 0 0 0) 100
      = .ok (llr 100 25, ⟨0, 1/2, 1/2, 1⟩) := by
  constructor
  · rw [emptyTree_unit_h1]
    have := insertAll_replicate_nw 100 0 0
    norm_num at this
    exact this
  · have hc : scoredCands
        (kulldorffScore llr 100 (h1Tree 100 100 0 0 0).region.area)
        (h1Tree 100 100 0 0 0) = [⟨llr 100 25, 1/4, ⟨0, 1/2, 1/2, 1⟩⟩] := by
      rw [scoredCands, show traverse (h1Tree 100 100 0 0 0)
          = [h1Tree 100 100 0 0 0, .leaf ⟨0, 1/2, 1/2, 1⟩ 100, .leaf ⟨1/2, 1/2, 1, 1⟩ 0,
              .leaf ⟨0, 0, 1/2, 1/2⟩ 0, .leaf ⟨1/2, 0, 1, 1/2⟩ 0] from by
        simp [traverse, h1Tree]]
      rw [scoredCands_step, show kulldorffScore llr 100
          (h1Tree 100 100 0 0 0).region.area (h1Tree 100 100 0 0 0) = none from by
        norm_num [kulldorffScore, h1Tree, QTree.val, QTree.region, Region.area]]
      rw [scoredCands_step, show kulldorffScore llr 100
          (h1Tree 100 100 0 0 0).region.area (.leaf ⟨0, 1/2, 1/2, 1⟩ 100)
          = some (llr 100 25) from by
        norm_num [kulldorffScore, h1Tree, QTree.val, QTree.region, Region.area]]
      rw [scoredCands_step, show kulldorffScore llr 100
          (h1Tree 100 100 0 0 0).region.area (.leaf ⟨1/2, 1/2, 1, 1⟩ 0) = none from by
        norm_num [kulldorffScore, h1Tree, QTree.val, QTree.region, Region.area]]
      rw [scoredCands_step, show kulldorffScore llr 100
          (h1Tree 100 100 0 0 0).region.area (.leaf ⟨0, 0, 1/2, 1/2⟩ 0) = none from by
        norm_num [kulldorffScore, h1Tree, QTree.val, QTree.region, Region.area]]
      rw [scoredCands_step, show kulldorffScore llr 100
          (h1Tree 100 100 0 0 0).region.area (.leaf ⟨1/2, 0, 1, 1/2⟩ 0) = none from by
        norm_num [kulldorffScore, h1Tree, QTree.val, QTree.region, Region.area]]
      norm_num [QTree.region, Region.area]
    show sweepWith (kulldorffScore llr 100 (h1Tree 100 100 0 0 0).region.area)
        (h1Tree 100 100 0 0 0) = .ok (llr 100 25, ⟨0, 1/2, 1/2, 1⟩)
    rw [sweepWith, hc]
    simp [pickBest]

/-- C10: four points, one per quadrant, build the height-1 tree with root
count 4 and every leaf count 1; UNIFORM allocation of `ε_total = 1` over
`H = 1` gives `[1/2, 1/2]`; and with population 4 no node is in excess, so
the Kulldorff sweep fails with `NoCandidate` whatever the finite statistic
values are. -/
theorem four_uniform_points_scenario (llr : ℚ → ℚ → ℚ) :
    insertAll (emptyTree ⟨0, 0, 1, 1⟩ 1)
        [((1 : ℚ)/4, (3 : ℚ)/4), ((3 : ℚ)/4, (3 : ℚ)/4), ((1 : ℚ)/4, (1 : ℚ)/4),
          ((3 : ℚ)/4, (1 : ℚ)/4)]
      = .ok (h1Tree 4 1 1 1 1)
    ∧ allocateBudget .UNIFORM 1 1 = .ok [1/2, 1/2]
    ∧ find_max_kulldorff_sweep llr (h1Tree 4 1 1 1 1) 4 = .error .NoCandidate := by
  refine ⟨?_, ?_, ?_⟩
  · rw [emptyTree_unit_h1]
    norm_num [insertAll, h1Tree, QTree.insert_point, QTree.region, Region.containsPoint,
      insertAux, quadOf, Region.midx, Region.midy]
  · norm_num [allocateBudget, List.replicate]
  · norm_num [find_max_kulldorff_sweep, sweepWith, scoredCands, traverse, kulldorffScore,
      h1Tree, QTree.val, QTree.region, Region.area, pickBest]

end Cormode
